import Mathlib

/-!
Verification development for the posting (recipe) backend.

The Python sources under `app/posting/` (serializers.py, views.py) are embedded
shallowly: the ORM database is an explicit record of lists, Django's
`get_or_create` / many-to-many `add` / `clear` are explicit functions on that
record, and exceptions that would escape a request handler are the `.error`
branch of `Except String`.
-/

namespace PostingApp

/-- Modelled from the spec: the `core.models.Tag` record (models.py is not part
of the analysed sources).  A tag is owned by a user and carries a free-text
name. Users are identified by their numeric primary key. -/
structure Tag where
  id : Nat
  user : Nat
  name : String
deriving DecidableEq, Repr

/-- Modelled from the spec: the `core.models.Step` record.  A step is owned by
a user and carries a name and an optional uploaded-image path (`none` when no
image has been stored). -/
structure Step where
  id : Nat
  user : Nat
  name : String
  image : Option String
deriving DecidableEq, Repr

/-- Modelled from the spec: the `core.models.Posting` record. -/
structure Posting where
  id : Nat
  user : Nat
  title : String
  description : String
  time_minutes : Nat
  link : String
deriving DecidableEq, Repr

/-- Modelled from the spec: the relational store.  The two many-to-many
relations are junction tables of `(posting id, child id)` pairs; `next…Id`
are the auto-increment counters for primary keys. -/
structure DB where
  postings : List Posting
  tags : List Tag
  steps : List Step
  postingTags : List (Nat × Nat)
  postingSteps : List (Nat × Nat)
  nextPostingId : Nat
  nextTagId : Nat
  nextStepId : Nat
deriving DecidableEq, Repr

/-- A validated nested tag descriptor: `TagSerializer` exposes `id` (read
only) and `name`, so validated nested tag data is just a name. -/
structure TagDescr where
  name : String
deriving DecidableEq, Repr

/-- A validated nested step descriptor.  `StepSerializer` exposes `id` (read
only), `name` and `image`; `image` is a file-upload field that cannot be
populated through the nested JSON payload of a posting request, so validated
nested step data carries only a name. -/
structure StepDescr where
  name : String
deriving DecidableEq, Repr

/-- The lookup kwargs of `Tag.objects.get_or_create(user=auth_user, **tag)`:
a stored tag matches a descriptor for user `u` when its owner is `u` and its
name is the descriptor's name. -/
def tagMatches (u : Nat) (d : TagDescr) (t : Tag) : Bool :=
  t.user == u && t.name == d.name

/-- The lookup kwargs of `Step.objects.get_or_create(user=auth_user, **step)`. -/
def stepMatches (u : Nat) (d : StepDescr) (s : Step) : Bool :=
  s.user == u && s.name == d.name

/-- `Tag.objects.get_or_create(user=auth_user, **tag)`: Django's `get` returns
the unique matching row, raises `DoesNotExist` (handled by creating the row)
when there is none, and raises `MultipleObjectsReturned` when several match. -/
def getOrCreateTag (db : DB) (u : Nat) (d : TagDescr) : Except String (Tag × DB) :=
  match db.tags.filter (tagMatches u d) with
  | [] =>
      let t : Tag := ⟨db.nextTagId, u, d.name⟩
      .ok (t, { db with tags := db.tags ++ [t], nextTagId := db.nextTagId + 1 })
  | [t] => .ok (t, db)
  | _ => .error "MultipleObjectsReturned"

/-- `Step.objects.get_or_create(user=auth_user, **step)`; a newly created step
has no stored image. -/
def getOrCreateStep (db : DB) (u : Nat) (d : StepDescr) : Except String (Step × DB) :=
  match db.steps.filter (stepMatches u d) with
  | [] =>
      let s : Step := ⟨db.nextStepId, u, d.name, none⟩
      .ok (s, { db with steps := db.steps ++ [s], nextStepId := db.nextStepId + 1 })
  | [s] => .ok (s, db)
  | _ => .error "MultipleObjectsReturned"

/-- `posting.tags.add(tag_obj)`: many-to-many `add` is idempotent — it inserts
a junction row only when the pair is not already linked. -/
def addTagLink (db : DB) (pid tid : Nat) : DB :=
  if (pid, tid) ∈ db.postingTags then db
  else { db with postingTags := db.postingTags ++ [(pid, tid)] }

/-- `posting.steps.add(step_obj)`. -/
def addStepLink (db : DB) (pid sid : Nat) : DB :=
  if (pid, sid) ∈ db.postingSteps then db
  else { db with postingSteps := db.postingSteps ++ [(pid, sid)] }

/-- `instance.tags.clear()`: remove every junction row of this posting;
the tag rows themselves are untouched. -/
def clearTagLinks (db : DB) (pid : Nat) : DB :=
  { db with postingTags := db.postingTags.filter (fun l => l.1 != pid) }

/-- `instance.steps.clear()`. -/
def clearStepLinks (db : DB) (pid : Nat) : DB :=
  { db with postingSteps := db.postingSteps.filter (fun l => l.1 != pid) }

/-- `PostingSerializer._get_or_create_tags(tags, posting)`: for each submitted
descriptor, get-or-create the tag scoped to the authenticated user and attach
it to the posting. -/
def getOrCreateTags (db : DB) (u pid : Nat) : List TagDescr → Except String DB
  | [] => .ok db
  | d :: rest => do
      let (t, db1) ← getOrCreateTag db u d
      getOrCreateTags (addTagLink db1 pid t.id) u pid rest

/-- `PostingSerializer._get_or_create_steps(steps, posting)`. -/
def getOrCreateSteps (db : DB) (u pid : Nat) : List StepDescr → Except String DB
  | [] => .ok db
  | d :: rest => do
      let (s, db1) ← getOrCreateStep db u d
      getOrCreateSteps (addStepLink db1 pid s.id) u pid rest

/-- Validated data of a posting write request.  Each field is `none` when the
key is absent from the (partial) payload.  `tags`/`steps` are declared with
`required=False` and without `allow_null`, so a present relation field is
always a list, never null. -/
structure Payload where
  title : Option String
  description : Option String
  time_minutes : Option Nat
  link : Option String
  tags : Option (List TagDescr)
  steps : Option (List StepDescr)
deriving DecidableEq, Repr

/-- `PostingSerializer.create(validated_data)` combined with
`PostingViewSet.perform_create` (which saves with `user=self.request.user`):
pop the relation fields (defaulting to the empty list), insert the posting
row, then reconcile tags and steps. -/
def createPosting (db : DB) (u : Nat) (pl : Payload) : Except String (Posting × DB) := do
  let tagDs := pl.tags.getD []
  let stepDs := pl.steps.getD []
  let p : Posting :=
    ⟨db.nextPostingId, u, pl.title.getD "", pl.description.getD "",
      pl.time_minutes.getD 0, pl.link.getD ""⟩
  let db0 := { db with postings := db.postings ++ [p], nextPostingId := db.nextPostingId + 1 }
  let db1 ← getOrCreateTags db0 u p.id tagDs
  let db2 ← getOrCreateSteps db1 u p.id stepDs
  .ok (p, db2)

/-- The `setattr` loop of `PostingSerializer.update` followed by
`instance.save()`: overwrite exactly the scalar attributes present in
`validated_data`.  The owner is never touched: `user` is not a serializer
field, so it can never appear in `validated_data`. -/
def applyPatch (p : Posting) (pl : Payload) : Posting :=
  { p with
    title := pl.title.getD p.title
    description := pl.description.getD p.description
    time_minutes := pl.time_minutes.getD p.time_minutes
    link := pl.link.getD p.link }

/-- `PostingSerializer.update(instance, validated_data)`.  Note the source
pops the relation fields with default `[]` (`validated_data.pop('tags', [])`),
so an absent relation field behaves exactly like an explicitly empty one, and
the subsequent `if tags is not None:` guard is always true (a present field is
a validated list, never null). -/
def updatePosting (db : DB) (u pid : Nat) (pl : Payload) : Except String DB := do
  let tagDs := pl.tags.getD []
  let stepDs := pl.steps.getD []
  let db1 := clearTagLinks db pid
  let db2 ← getOrCreateTags db1 u pid tagDs
  let db3 := clearStepLinks db2 pid
  let db4 ← getOrCreateSteps db3 u pid stepDs
  .ok { db4 with
        postings := db4.postings.map (fun q => if q.id == pid then applyPatch q pl else q) }

/-- Digits of a decimal literal to a natural number. -/
def digitsToNat (cs : List Char) : Nat :=
  cs.foldl (fun n c => n * 10 + (c.toNat - 48)) 0

/-- Strip leading and trailing whitespace from a character list. -/
def pyTrim (cs : List Char) : List Char :=
  ((cs.dropWhile Char.isWhitespace).reverse.dropWhile Char.isWhitespace).reverse

/-- Python's `int(str)` on a string argument: optional surrounding whitespace,
an optional sign, then at least one decimal digit; anything else raises
`ValueError` (`none` here).  (Digit-group underscores and non-ASCII digits,
which CPython also accepts, are ignored by this model; no claim depends on
them.) -/
def pyInt (s : String) : Option Int :=
  match pyTrim s.data with
  | [] => none
  | '+' :: rest =>
      if rest ≠ [] ∧ rest.all Char.isDigit then some (Int.ofNat (digitsToNat rest)) else none
  | '-' :: rest =>
      if rest ≠ [] ∧ rest.all Char.isDigit then some (-(Int.ofNat (digitsToNat rest))) else none
  | c :: rest =>
      if (c :: rest).all Char.isDigit then some (Int.ofNat (digitsToNat (c :: rest))) else none

/-- Python's `qs.split(',')` on a character list: cut at every comma, keeping
empty pieces (so the empty string yields one empty token). -/
def splitCommaChars : List Char → List (List Char)
  | [] => [[]]
  | c :: rest =>
      if c = ',' then [] :: splitCommaChars rest
      else
        match splitCommaChars rest with
        | [] => [[c]]
        | g :: gs => (c :: g) :: gs

/-- `qs.split(',')`. -/
def splitComma (s : String) : List String :=
  (splitCommaChars s.data).map String.mk

/-- The list comprehension `[int(str_id) for str_id in qs.split(',')]`:
convert the tokens left to right, raising `ValueError` at the first
non-numeric one. -/
def intsOfTokens : List String → Except String (List Int)
  | [] => .ok []
  | t :: rest =>
      match pyInt t with
      | some n =>
          match intsOfTokens rest with
          | .ok ns => .ok (n :: ns)
          | .error e => .error e
      | none => .error "ValueError"

/-- `PostingViewSet._params_to_ints(qs)`: split on commas and apply `int` to
every token; a non-numeric token raises `ValueError`, which nothing in the
view catches. -/
def paramsToInts (qs : String) : Except String (List Int) :=
  intsOfTokens (splitComma qs)

/-- The SQL join produced by `queryset.filter(tags__id__in=tag_ids)`: one
result row per (posting, matching junction row) pair, so a posting with
several matching tags appears several times until `.distinct()`. -/
def tagJoinFilter (db : DB) (ids : List Int) (q : List Posting) : List Posting :=
  q.flatMap (fun p =>
    (db.postingTags.filter (fun l => l.1 == p.id && ids.contains (Int.ofNat l.2))).map
      (fun _ => p))

/-- The join of `queryset.filter(steps__id__in=step_ids)`. -/
def stepJoinFilter (db : DB) (ids : List Int) (q : List Posting) : List Posting :=
  q.flatMap (fun p =>
    (db.postingSteps.filter (fun l => l.1 == p.id && ids.contains (Int.ofNat l.2))).map
      (fun _ => p))

/-- `ORDER BY id DESC` as the descending-id relation on postings. -/
def postingGe (a b : Posting) : Prop := b.id ≤ a.id

instance : DecidableRel postingGe := fun a b => Nat.decLe b.id a.id

instance : IsTotal Posting postingGe := ⟨fun a b => Nat.le_total b.id a.id⟩

instance : IsTrans Posting postingGe := ⟨fun _ _ _ hab hbc => Nat.le_trans hbc hab⟩

/-- `.order_by('-id')`. -/
def sortByIdDesc (l : List Posting) : List Posting := List.insertionSort postingGe l

/-- `PostingViewSet.get_queryset`: optionally join-filter by tag ids and step
ids (a missing or empty parameter is falsy and skips its filter), then
restrict to the requesting user's postings, order by descending id and
deduplicate.  A `ValueError` escaping `_params_to_ints` propagates (`.error`),
which the web framework reports as an unhandled server error (HTTP 500). -/
def getQueryset (db : DB) (u : Nat) (tagsParam stepsParam : Option String) :
    Except String (List Posting) := do
  let q0 := db.postings
  let q1 ← match tagsParam with
    | some s =>
        if s == "" then pure q0 else do
          let ids ← paramsToInts s
          pure (tagJoinFilter db ids q0)
    | none => pure q0
  let q2 ← match stepsParam with
    | some s =>
        if s == "" then pure q1 else do
          let ids ← paramsToInts s
          pure (stepJoinFilter db ids q1)
    | none => pure q1
  pure (sortByIdDesc ((q2.filter (fun p => p.user == u)).dedup))

/-- `PostingSerializer.Meta.fields`, transcribed from serializers.py line 37. -/
def postingSerializerFields : List String :=
  ["id", "title", "description", "time_minutes", "link", "tags", "steps"]

/-- `PostingDetailSerializer.Meta.fields = PostingSerializer.Meta.fields +
['description']`. -/
def postingDetailSerializerFields : List String :=
  postingSerializerFields ++ ["description"]

/-- `PostingViewSet.get_serializer_class`: the list action uses
`PostingSerializer`, every other action the detail serializer; the
representation emitted for a posting consists of that serializer's fields. -/
def serializerFieldsFor (action : String) : List String :=
  if action == "list" then postingSerializerFields else postingDetailSerializerFields

/-- The raw body of a posting write request, before serializer validation.
A client may submit any key, in particular `user`. -/
structure RawPayload where
  title : Option String
  description : Option String
  time_minutes : Option Nat
  link : Option String
  tags : Option (List TagDescr)
  steps : Option (List StepDescr)
  user : Option Nat
deriving DecidableEq, Repr

/-- Serializer validation of a raw body: a `ModelSerializer` keeps exactly the
writable keys of `Meta.fields`; `user` is not among
`PostingSerializer.Meta.fields`, so a submitted `user` key is dropped and
never reaches `validated_data`. -/
def validateRaw (r : RawPayload) : Payload :=
  ⟨r.title, r.description, r.time_minutes, r.link, r.tags, r.steps⟩

/-- A `PATCH /postings/{id}/` request: `get_object` looks the posting up in
`get_queryset()`, which is scoped to the requesting user (404 when absent or
foreign), then the serializer's `update` runs on the validated data and the
view answers 200. -/
def patchPostingRequest (db : DB) (u pid : Nat) (raw : RawPayload) :
    Except String (Nat × DB) :=
  match db.postings.find? (fun p => p.id == pid && p.user == u) with
  | none => .ok (404, db)
  | some _ => do
      let db' ← updatePosting db u pid (validateRaw raw)
      .ok (200, db')

/-- `StepViewSet.upload_image` with `StepImageSerializer` (`image` required).
The framework's image validation and file storage are external: they are
passed in as `isValid` (does the uploaded payload decode as an image?) and
`store` (the stored path reference for the uploaded bytes).  Result: an HTTP
status, the stored path reference in the 200 response body, and the new
database state. -/
def uploadImage (isValid : String → Bool) (store : String → String)
    (db : DB) (u sid : Nat) (payload : Option String) :
    Nat × Option String × DB :=
  match db.steps.find? (fun s => s.id == sid && s.user == u) with
  | none => (404, none, db)
  | some _ =>
      match payload with
      | none => (400, none, db)
      | some img =>
          if isValid img then
            (200, some (store img),
              { db with steps := db.steps.map (fun t =>
                  if t.id == sid then { t with image := some (store img) } else t) })
          else (400, none, db)

/-! ### Lemmas about the tag reconciler -/

theorem tagMatches_user {u : Nat} {d : TagDescr} {t : Tag}
    (h : tagMatches u d t = true) : t.user = u := by
  simp only [tagMatches, Bool.and_eq_true, beq_iff_eq] at h
  exact h.1

theorem tagMatches_of_mem_filter {u : Nat} {d : TagDescr} {t : Tag} {l : List Tag}
    (h : t ∈ l.filter (tagMatches u d)) : tagMatches u d t = true :=
  List.of_mem_filter h

theorem getOrCreateTag_ok_cases {db : DB} {u : Nat} {d : TagDescr} {t : Tag} {db' : DB}
    (h : getOrCreateTag db u d = .ok (t, db')) :
    (db.tags.filter (tagMatches u d) = [] ∧ t = ⟨db.nextTagId, u, d.name⟩ ∧
      db' = { db with tags := db.tags ++ [t], nextTagId := db.nextTagId + 1 }) ∨
    (db.tags.filter (tagMatches u d) = [t] ∧ db' = db) := by
  unfold getOrCreateTag at h
  rcases hf : db.tags.filter (tagMatches u d) with _ | ⟨a, _ | ⟨b, l⟩⟩ <;> rw [hf] at h
  · injection h with h1
    injection h1 with h1 h2
    subst h1
    exact Or.inl ⟨rfl, rfl, h2.symm⟩
  · injection h with h1
    injection h1 with h1 h2
    subst h1
    subst h2
    exact Or.inr ⟨rfl, rfl⟩
  · exact Except.noConfusion h

theorem getOrCreateTag_matches {db : DB} {u : Nat} {d : TagDescr} {t : Tag} {db' : DB}
    (h : getOrCreateTag db u d = .ok (t, db')) : tagMatches u d t = true := by
  rcases getOrCreateTag_ok_cases h with ⟨_, ht, _⟩ | ⟨hf, _⟩
  · subst ht
    simp [tagMatches]
  · exact tagMatches_of_mem_filter (hf ▸ List.mem_singleton_self t)

theorem getOrCreateTag_mem {db : DB} {u : Nat} {d : TagDescr} {t : Tag} {db' : DB}
    (h : getOrCreateTag db u d = .ok (t, db')) : t ∈ db'.tags := by
  rcases getOrCreateTag_ok_cases h with ⟨_, _, hdb⟩ | ⟨hf, hdb⟩
  · subst hdb
    simp
  · subst hdb
    exact List.mem_of_mem_filter (hf ▸ List.mem_singleton_self t)

theorem getOrCreateTag_tags_shape {db : DB} {u : Nat} {d : TagDescr} {t : Tag} {db' : DB}
    (h : getOrCreateTag db u d = .ok (t, db')) :
    db'.tags = db.tags ∨ db'.tags = db.tags ++ [t] := by
  rcases getOrCreateTag_ok_cases h with ⟨_, _, hdb⟩ | ⟨_, hdb⟩ <;> subst hdb <;> simp

theorem getOrCreateTag_frame {db : DB} {u : Nat} {d : TagDescr} {t : Tag} {db' : DB}
    (h : getOrCreateTag db u d = .ok (t, db')) :
    db'.postings = db.postings ∧ db'.steps = db.steps ∧
      db'.postingTags = db.postingTags ∧ db'.postingSteps = db.postingSteps ∧
      db'.nextPostingId = db.nextPostingId ∧ db'.nextStepId = db.nextStepId := by
  rcases getOrCreateTag_ok_cases h with ⟨_, _, hdb⟩ | ⟨_, hdb⟩ <;> subst hdb <;> simp

theorem addTagLink_frame (db : DB) (pid tid : Nat) :
    (addTagLink db pid tid).postings = db.postings ∧
      (addTagLink db pid tid).tags = db.tags ∧
      (addTagLink db pid tid).steps = db.steps ∧
      (addTagLink db pid tid).postingSteps = db.postingSteps ∧
      (addTagLink db pid tid).nextPostingId = db.nextPostingId ∧
      (addTagLink db pid tid).nextTagId = db.nextTagId ∧
      (addTagLink db pid tid).nextStepId = db.nextStepId := by
  unfold addTagLink
  split <;> simp

theorem mem_addTagLink {db : DB} {pid tid : Nat} {l : Nat × Nat} :
    l ∈ (addTagLink db pid tid).postingTags ↔
      l ∈ db.postingTags ∨ l = (pid, tid) := by
  unfold addTagLink
  split_ifs with h
  · constructor
    · exact Or.inl
    · rintro (hl | rfl)
      · exact hl
      · exact h
  · simp

theorem getOrCreateTags_cons (db : DB) (u pid : Nat) (d : TagDescr) (rest : List TagDescr) :
    getOrCreateTags db u pid (d :: rest) =
      match getOrCreateTag db u d with
      | .ok (t, db1) => getOrCreateTags (addTagLink db1 pid t.id) u pid rest
      | .error e => .error e := by
  rcases hg : getOrCreateTag db u d with e | ⟨t, db1⟩ <;>
    simp [getOrCreateTags, hg, bind, Except.bind]

theorem gocTags_frame {u pid : Nat} :
    ∀ {ds : List TagDescr} {db db' : DB},
      getOrCreateTags db u pid ds = .ok db' →
      db'.postings = db.postings ∧ db'.steps = db.steps ∧
        db'.postingSteps = db.postingSteps ∧
        db'.nextPostingId = db.nextPostingId ∧ db'.nextStepId = db.nextStepId := by
  intro ds
  induction ds with
  | nil =>
      intro db db' h
      cases h
      exact ⟨rfl, rfl, rfl, rfl, rfl⟩
  | cons d rest ih =>
      intro db db' h
      rw [getOrCreateTags_cons] at h
      rcases hg : getOrCreateTag db u d with e | ⟨t, db1⟩ <;> rw [hg] at h
      · cases h
      obtain ⟨h1, h2, h3, h4, h5⟩ := ih h
      obtain ⟨g1, g2, g3, g4, g5, g6⟩ := getOrCreateTag_frame hg
      obtain ⟨a1, _, a3, a4, a5, _, a7⟩ := addTagLink_frame db1 pid t.id
      exact ⟨h1.trans (a1.trans g1), h2.trans (a3.trans g2), h3.trans (a4.trans g4),
        h4.trans (a5.trans g5), h5.trans (a7.trans g6)⟩

theorem gocTags_tags_shape {u pid : Nat} :
    ∀ {ds : List TagDescr} {db db' : DB},
      getOrCreateTags db u pid ds = .ok db' →
      ∃ ext, db'.tags = db.tags ++ ext ∧ ∀ x ∈ ext, x.user = u := by
  intro ds
  induction ds with
  | nil =>
      intro db db' h
      cases h
      exact ⟨[], by simp, by simp⟩
  | cons d rest ih =>
      intro db db' h
      rw [getOrCreateTags_cons] at h
      rcases hg : getOrCreateTag db u d with e | ⟨t, db1⟩ <;> rw [hg] at h
      · cases h
      obtain ⟨ext, hext, hu⟩ := ih h
      rw [(addTagLink_frame db1 pid t.id).2.1] at hext
      rcases getOrCreateTag_tags_shape hg with h1 | h1
      · exact ⟨ext, by rw [hext, h1], hu⟩
      · refine ⟨t :: ext, by rw [hext, h1]; simp, ?_⟩
        intro x hx
        rcases List.mem_cons.mp hx with hx | hx
        · exact hx ▸ tagMatches_user (getOrCreateTag_matches hg)
        · exact hu x hx

theorem gocTags_tags_mono {u pid : Nat} {ds : List TagDescr} {db db' : DB}
    (h : getOrCreateTags db u pid ds = .ok db') :
    ∀ t ∈ db.tags, t ∈ db'.tags := by
  obtain ⟨ext, hext, -⟩ := gocTags_tags_shape h
  intro t ht
  rw [hext]
  exact List.mem_append_left ext ht

theorem gocTags_links_mono {u pid : Nat} :
    ∀ {ds : List TagDescr} {db db' : DB},
      getOrCreateTags db u pid ds = .ok db' →
      ∀ l ∈ db.postingTags, l ∈ db'.postingTags := by
  intro ds
  induction ds with
  | nil =>
      intro db db' h
      cases h
      exact fun _ hl => hl
  | cons d rest ih =>
      intro db db' h l hl
      rw [getOrCreateTags_cons] at h
      rcases hg : getOrCreateTag db u d with e | ⟨t, db1⟩ <;> rw [hg] at h
      · cases h
      refine ih h l (mem_addTagLink.mpr (Or.inl ?_))
      rw [(getOrCreateTag_frame hg).2.2.1]
      exact hl

theorem gocTags_links_sub {u pid : Nat} :
    ∀ {ds : List TagDescr} {db db' : DB},
      getOrCreateTags db u pid ds = .ok db' →
      ∀ l ∈ db'.postingTags,
        l ∈ db.postingTags ∨
          (l.1 = pid ∧ ∃ t ∈ db'.tags, t.id = l.2 ∧ t.user = u) := by
  intro ds
  induction ds with
  | nil =>
      intro db db' h
      cases h
      exact fun l hl => Or.inl hl
  | cons d rest ih =>
      intro db db' h l hl
      rw [getOrCreateTags_cons] at h
      rcases hg : getOrCreateTag db u d with e | ⟨t, db1⟩ <;> rw [hg] at h
      · cases h
      rcases ih h l hl with hcase | hcase
      · rcases mem_addTagLink.mp hcase with hcase | hcase
        · rw [(getOrCreateTag_frame hg).2.2.1] at hcase
          exact Or.inl hcase
        · refine Or.inr ⟨by rw [hcase], t, ?_, by rw [hcase],
            tagMatches_user (getOrCreateTag_matches hg)⟩
          exact gocTags_tags_mono h t
            (((addTagLink_frame db1 pid t.id).2.1).symm ▸ getOrCreateTag_mem hg)
      · exact Or.inr hcase

/-- The processing of descriptor `d` has reached a fixed point: exactly one
stored tag matches it and that tag is already linked to the posting. -/
def settledTag (db : DB) (u pid : Nat) (d : TagDescr) : Prop :=
  ∃ t, db.tags.filter (tagMatches u d) = [t] ∧ (pid, t.id) ∈ db.postingTags

theorem tagMatches_ext {u : Nat} {d e : TagDescr} (hne : d ≠ e) (t : Tag) :
    tagMatches u d t = true → tagMatches u e t = true → False := by
  intro hd he
  simp only [tagMatches, Bool.and_eq_true, beq_iff_eq] at hd he
  exact hne (by cases d; cases e; simp_all)

theorem settledTag_step {db db1 : DB} {u pid : Nat} {d : TagDescr} {t : Tag}
    (hg : getOrCreateTag db u d = .ok (t, db1)) :
    settledTag (addTagLink db1 pid t.id) u pid d := by
  refine ⟨t, ?_, mem_addTagLink.mpr (Or.inr rfl)⟩
  rw [(addTagLink_frame db1 pid t.id).2.1]
  rcases getOrCreateTag_ok_cases hg with ⟨hf, ht, hdb⟩ | ⟨hf, hdb⟩
  · subst hdb
    simp only [List.filter_append, hf, List.nil_append]
    simp [List.filter, getOrCreateTag_matches hg]
  · subst hdb
    exact hf

theorem settledTag_preserve {db db1 : DB} {u pid : Nat} {d e : TagDescr} {s : Tag}
    (hs : settledTag db u pid d) (hg : getOrCreateTag db u e = .ok (s, db1)) :
    settledTag (addTagLink db1 pid s.id) u pid d := by
  obtain ⟨t, hf, hl⟩ := hs
  rcases getOrCreateTag_ok_cases hg with ⟨hfe, hse, hdb⟩ | ⟨hfs, hdb⟩
  · subst hdb
    subst hse
    have hde : d ≠ e := by
      intro hde
      rw [hde, hfe] at hf
      exact List.noConfusion hf
    have hms : tagMatches u d (⟨db.nextTagId, u, e.name⟩ : Tag) = false := by
      cases hmb : tagMatches u d (⟨db.nextTagId, u, e.name⟩ : Tag) with
      | false => rfl
      | true => exact (tagMatches_ext hde _ hmb (by simp [tagMatches])).elim
    refine ⟨t, ?_, mem_addTagLink.mpr (Or.inl hl)⟩
    rw [(addTagLink_frame _ pid _).2.1]
    show (db.tags ++ [(⟨db.nextTagId, u, e.name⟩ : Tag)]).filter (tagMatches u d) = [t]
    rw [List.filter_append, hf]
    simp [List.filter, hms]
  · subst hdb
    refine ⟨t, ?_, mem_addTagLink.mpr (Or.inl hl)⟩
    rw [(addTagLink_frame _ pid _).2.1]
    exact hf

theorem gocTags_preserves_settled {u pid : Nat} :
    ∀ {ds : List TagDescr} {db db' : DB},
      getOrCreateTags db u pid ds = .ok db' →
      ∀ {d : TagDescr}, settledTag db u pid d → settledTag db' u pid d := by
  intro ds
  induction ds with
  | nil =>
      intro db db' h d hs
      cases h
      exact hs
  | cons e rest ih =>
      intro db db' h d hs
      rw [getOrCreateTags_cons] at h
      rcases hg : getOrCreateTag db u e with er | ⟨s, db1⟩ <;> rw [hg] at h
      · cases h
      exact ih h (settledTag_preserve hs hg)

theorem gocTags_settled {u pid : Nat} :
    ∀ {ds : List TagDescr} {db db' : DB},
      getOrCreateTags db u pid ds = .ok db' →
      ∀ {d : TagDescr}, d ∈ ds → settledTag db' u pid d := by
  intro ds
  induction ds with
  | nil =>
      intro db db' _ d hd
      exact absurd hd (List.not_mem_nil d)
  | cons e rest ih =>
      intro db db' h d hd
      rw [getOrCreateTags_cons] at h
      rcases hg : getOrCreateTag db u e with er | ⟨s, db1⟩ <;> rw [hg] at h
      · cases h
      rcases List.mem_cons.mp hd with hde | hdr
      · exact gocTags_preserves_settled h (hde ▸ settledTag_step hg)
      · exact ih h hdr

/-- First-occurrence deduplication of a tag-descriptor list relative to an
accumulator of already-seen descriptors. -/
def dedupTagDescrs (seen : List TagDescr) : List TagDescr → List TagDescr
  | [] => []
  | d :: rest =>
      if d ∈ seen then dedupTagDescrs seen rest
      else d :: dedupTagDescrs (d :: seen) rest

theorem settledTag_noop {db : DB} {u pid : Nat} {d : TagDescr} (hs : settledTag db u pid d)
    (rest : List TagDescr) :
    getOrCreateTags db u pid (d :: rest) = getOrCreateTags db u pid rest := by
  obtain ⟨t, hf, hl⟩ := hs
  have hg : getOrCreateTag db u d = .ok (t, db) := by
    unfold getOrCreateTag
    rw [hf]
  rw [getOrCreateTags_cons, hg]
  have ha : addTagLink db pid t.id = db := by
    unfold addTagLink
    rw [if_pos hl]
  show getOrCreateTags (addTagLink db pid t.id) u pid rest = getOrCreateTags db u pid rest
  rw [ha]

theorem gocTags_dedup_aux {u pid : Nat} :
    ∀ {ds : List TagDescr} {db : DB} {seen : List TagDescr},
      (∀ d ∈ seen, settledTag db u pid d) →
      getOrCreateTags db u pid ds = getOrCreateTags db u pid (dedupTagDescrs seen ds) := by
  intro ds
  induction ds with
  | nil =>
      intro db seen _
      rfl
  | cons d rest ih =>
      intro db seen hseen
      by_cases hd : d ∈ seen
      · rw [dedupTagDescrs, if_pos hd, settledTag_noop (hseen d hd) rest]
        exact ih hseen
      · rw [dedupTagDescrs, if_neg hd, getOrCreateTags_cons, getOrCreateTags_cons]
        rcases hg : getOrCreateTag db u d with er | ⟨t, db1⟩
        · rfl
        refine ih ?_
        intro e he
        rcases List.mem_cons.mp he with rfl | hes
        · exact settledTag_step hg
        · exact settledTag_preserve (hseen e hes) hg

theorem gocTags_eq_dedup (db : DB) (u pid : Nat) (ds : List TagDescr) :
    getOrCreateTags db u pid ds = getOrCreateTags db u pid (dedupTagDescrs [] ds) :=
  gocTags_dedup_aux (fun d hd => absurd hd (List.not_mem_nil d))

/-! ### Lemmas about the step reconciler (mirroring the tag reconciler) -/

theorem stepMatches_user {u : Nat} {d : StepDescr} {s : Step}
    (h : stepMatches u d s = true) : s.user = u := by
  simp only [stepMatches, Bool.and_eq_true, beq_iff_eq] at h
  exact h.1

theorem stepMatches_of_mem_filter {u : Nat} {d : StepDescr} {s : Step} {l : List Step}
    (h : s ∈ l.filter (stepMatches u d)) : stepMatches u d s = true :=
  List.of_mem_filter h

theorem getOrCreateStep_ok_cases {db : DB} {u : Nat} {d : StepDescr} {s : Step} {db' : DB}
    (h : getOrCreateStep db u d = .ok (s, db')) :
    (db.steps.filter (stepMatches u d) = [] ∧ s = ⟨db.nextStepId, u, d.name, none⟩ ∧
      db' = { db with steps := db.steps ++ [s], nextStepId := db.nextStepId + 1 }) ∨
    (db.steps.filter (stepMatches u d) = [s] ∧ db' = db) := by
  unfold getOrCreateStep at h
  rcases hf : db.steps.filter (stepMatches u d) with _ | ⟨a, _ | ⟨b, l⟩⟩ <;> rw [hf] at h
  · injection h with h1
    injection h1 with h1 h2
    subst h1
    exact Or.inl ⟨rfl, rfl, h2.symm⟩
  · injection h with h1
    injection h1 with h1 h2
    subst h1
    subst h2
    exact Or.inr ⟨rfl, rfl⟩
  · exact Except.noConfusion h

theorem getOrCreateStep_matches {db : DB} {u : Nat} {d : StepDescr} {s : Step} {db' : DB}
    (h : getOrCreateStep db u d = .ok (s, db')) : stepMatches u d s = true := by
  rcases getOrCreateStep_ok_cases h with ⟨_, hs, _⟩ | ⟨hf, _⟩
  · subst hs
    simp [stepMatches]
  · exact stepMatches_of_mem_filter (hf ▸ List.mem_singleton_self s)

theorem getOrCreateStep_mem {db : DB} {u : Nat} {d : StepDescr} {s : Step} {db' : DB}
    (h : getOrCreateStep db u d = .ok (s, db')) : s ∈ db'.steps := by
  rcases getOrCreateStep_ok_cases h with ⟨_, _, hdb⟩ | ⟨hf, hdb⟩
  · subst hdb
    simp
  · subst hdb
    exact List.mem_of_mem_filter (hf ▸ List.mem_singleton_self s)

theorem getOrCreateStep_steps_shape {db : DB} {u : Nat} {d : StepDescr} {s : Step} {db' : DB}
    (h : getOrCreateStep db u d = .ok (s, db')) :
    db'.steps = db.steps ∨ db'.steps = db.steps ++ [s] := by
  rcases getOrCreateStep_ok_cases h with ⟨_, _, hdb⟩ | ⟨_, hdb⟩ <;> subst hdb <;> simp

theorem getOrCreateStep_frame {db : DB} {u : Nat} {d : StepDescr} {s : Step} {db' : DB}
    (h : getOrCreateStep db u d = .ok (s, db')) :
    db'.postings = db.postings ∧ db'.tags = db.tags ∧
      db'.postingSteps = db.postingSteps ∧ db'.postingTags = db.postingTags ∧
      db'.nextPostingId = db.nextPostingId ∧ db'.nextTagId = db.nextTagId := by
  rcases getOrCreateStep_ok_cases h with ⟨_, _, hdb⟩ | ⟨_, hdb⟩ <;> subst hdb <;> simp

theorem addStepLink_frame (db : DB) (pid sid : Nat) :
    (addStepLink db pid sid).postings = db.postings ∧
      (addStepLink db pid sid).steps = db.steps ∧
      (addStepLink db pid sid).tags = db.tags ∧
      (addStepLink db pid sid).postingTags = db.postingTags ∧
      (addStepLink db pid sid).nextPostingId = db.nextPostingId ∧
      (addStepLink db pid sid).nextStepId = db.nextStepId ∧
      (addStepLink db pid sid).nextTagId = db.nextTagId := by
  unfold addStepLink
  split_ifs with h
  · simp
  · simp

theorem mem_addStepLink {db : DB} {pid sid : Nat} {l : Nat × Nat} :
    l ∈ (addStepLink db pid sid).postingSteps ↔
      l ∈ db.postingSteps ∨ l = (pid, sid) := by
  unfold addStepLink
  split_ifs with h
  · constructor
    · exact Or.inl
    · rintro (hl | rfl)
      · exact hl
      · exact h
  · simp

theorem getOrCreateSteps_cons (db : DB) (u pid : Nat) (d : StepDescr) (rest : List StepDescr) :
    getOrCreateSteps db u pid (d :: rest) =
      match getOrCreateStep db u d with
      | .ok (s, db1) => getOrCreateSteps (addStepLink db1 pid s.id) u pid rest
      | .error e => .error e := by
  rcases hg : getOrCreateStep db u d with e | ⟨s, db1⟩ <;>
    simp [getOrCreateSteps, hg, bind, Except.bind]

theorem gocSteps_frame {u pid : Nat} :
    ∀ {ds : List StepDescr} {db db' : DB},
      getOrCreateSteps db u pid ds = .ok db' →
      db'.postings = db.postings ∧ db'.tags = db.tags ∧
        db'.postingTags = db.postingTags ∧
        db'.nextPostingId = db.nextPostingId ∧ db'.nextTagId = db.nextTagId := by
  intro ds
  induction ds with
  | nil =>
      intro db db' h
      cases h
      exact ⟨rfl, rfl, rfl, rfl, rfl⟩
  | cons d rest ih =>
      intro db db' h
      rw [getOrCreateSteps_cons] at h
      rcases hg : getOrCreateStep db u d with e | ⟨s, db1⟩ <;> rw [hg] at h
      · cases h
      obtain ⟨h1, h2, h3, h4, h5⟩ := ih h
      obtain ⟨g1, g2, g3, g4, g5, g6⟩ := getOrCreateStep_frame hg
      obtain ⟨a1, _, a3, a4, a5, _, a7⟩ := addStepLink_frame db1 pid s.id
      exact ⟨h1.trans (a1.trans g1), h2.trans (a3.trans g2), h3.trans (a4.trans g4),
        h4.trans (a5.trans g5), h5.trans (a7.trans g6)⟩

theorem gocSteps_steps_shape {u pid : Nat} :
    ∀ {ds : List StepDescr} {db db' : DB},
      getOrCreateSteps db u pid ds = .ok db' →
      ∃ ext, db'.steps = db.steps ++ ext ∧ ∀ x ∈ ext, x.user = u := by
  intro ds
  induction ds with
  | nil =>
      intro db db' h
      cases h
      exact ⟨[], by simp, by simp⟩
  | cons d rest ih =>
      intro db db' h
      rw [getOrCreateSteps_cons] at h
      rcases hg : getOrCreateStep db u d with e | ⟨s, db1⟩ <;> rw [hg] at h
      · cases h
      obtain ⟨ext, hext, hu⟩ := ih h
      rw [(addStepLink_frame db1 pid s.id).2.1] at hext
      rcases getOrCreateStep_steps_shape hg with h1 | h1
      · exact ⟨ext, by rw [hext, h1], hu⟩
      · refine ⟨s :: ext, by rw [hext, h1]; simp, ?_⟩
        intro x hx
        rcases List.mem_cons.mp hx with hx | hx
        · exact hx ▸ stepMatches_user (getOrCreateStep_matches hg)
        · exact hu x hx

theorem gocSteps_steps_mono {u pid : Nat} {ds : List StepDescr} {db db' : DB}
    (h : getOrCreateSteps db u pid ds = .ok db') :
    ∀ s ∈ db.steps, s ∈ db'.steps := by
  obtain ⟨ext, hext, -⟩ := gocSteps_steps_shape h
  intro s hs
  rw [hext]
  exact List.mem_append_left ext hs

theorem gocSteps_links_mono {u pid : Nat} :
    ∀ {ds : List StepDescr} {db db' : DB},
      getOrCreateSteps db u pid ds = .ok db' →
      ∀ l ∈ db.postingSteps, l ∈ db'.postingSteps := by
  intro ds
  induction ds with
  | nil =>
      intro db db' h
      cases h
      exact fun _ hl => hl
  | cons d rest ih =>
      intro db db' h l hl
      rw [getOrCreateSteps_cons] at h
      rcases hg : getOrCreateStep db u d with e | ⟨s, db1⟩ <;> rw [hg] at h
      · cases h
      refine ih h l (mem_addStepLink.mpr (Or.inl ?_))
      rw [(getOrCreateStep_frame hg).2.2.1]
      exact hl

theorem gocSteps_links_sub {u pid : Nat} :
    ∀ {ds : List StepDescr} {db db' : DB},
      getOrCreateSteps db u pid ds = .ok db' →
      ∀ l ∈ db'.postingSteps,
        l ∈ db.postingSteps ∨
          (l.1 = pid ∧ ∃ s ∈ db'.steps, s.id = l.2 ∧ s.user = u) := by
  intro ds
  induction ds with
  | nil =>
      intro db db' h
      cases h
      exact fun l hl => Or.inl hl
  | cons d rest ih =>
      intro db db' h l hl
      rw [getOrCreateSteps_cons] at h
      rcases hg : getOrCreateStep db u d with e | ⟨s, db1⟩ <;> rw [hg] at h
      · cases h
      rcases ih h l hl with hcase | hcase
      · rcases mem_addStepLink.mp hcase with hcase | hcase
        · rw [(getOrCreateStep_frame hg).2.2.1] at hcase
          exact Or.inl hcase
        · refine Or.inr ⟨by rw [hcase], s, ?_, by rw [hcase],
            stepMatches_user (getOrCreateStep_matches hg)⟩
          exact gocSteps_steps_mono h s
            (((addStepLink_frame db1 pid s.id).2.1).symm ▸ getOrCreateStep_mem hg)
      · exact Or.inr hcase

/-- The step analogue of `settledTag`. -/
def settledStep (db : DB) (u pid : Nat) (d : StepDescr) : Prop :=
  ∃ s, db.steps.filter (stepMatches u d) = [s] ∧ (pid, s.id) ∈ db.postingSteps

theorem stepMatches_ext {u : Nat} {d e : StepDescr} (hne : d ≠ e) (s : Step) :
    stepMatches u d s = true → stepMatches u e s = true → False := by
  intro hd he
  simp only [stepMatches, Bool.and_eq_true, beq_iff_eq] at hd he
  exact hne (by cases d; cases e; simp_all)

theorem settledStep_step {db db1 : DB} {u pid : Nat} {d : StepDescr} {s : Step}
    (hg : getOrCreateStep db u d = .ok (s, db1)) :
    settledStep (addStepLink db1 pid s.id) u pid d := by
  refine ⟨s, ?_, mem_addStepLink.mpr (Or.inr rfl)⟩
  rw [(addStepLink_frame db1 pid s.id).2.1]
  rcases getOrCreateStep_ok_cases hg with ⟨hf, hs, hdb⟩ | ⟨hf, hdb⟩
  · subst hdb
    simp only [List.filter_append, hf, List.nil_append]
    simp [List.filter, getOrCreateStep_matches hg]
  · subst hdb
    exact hf

theorem settledStep_preserve {db db1 : DB} {u pid : Nat} {d e : StepDescr} {s : Step}
    (hs : settledStep db u pid d) (hg : getOrCreateStep db u e = .ok (s, db1)) :
    settledStep (addStepLink db1 pid s.id) u pid d := by
  obtain ⟨t, hf, hl⟩ := hs
  rcases getOrCreateStep_ok_cases hg with ⟨hfe, hse, hdb⟩ | ⟨hfs, hdb⟩
  · subst hdb
    subst hse
    have hde : d ≠ e := by
      intro hde
      rw [hde, hfe] at hf
      exact List.noConfusion hf
    have hms : stepMatches u d (⟨db.nextStepId, u, e.name, none⟩ : Step) = false := by
      cases hmb : stepMatches u d (⟨db.nextStepId, u, e.name, none⟩ : Step) with
      | false => rfl
      | true => exact (stepMatches_ext hde _ hmb (by simp [stepMatches])).elim
    refine ⟨t, ?_, mem_addStepLink.mpr (Or.inl hl)⟩
    rw [(addStepLink_frame _ pid _).2.1]
    show (db.steps ++ [(⟨db.nextStepId, u, e.name, none⟩ : Step)]).filter (stepMatches u d) = [t]
    rw [List.filter_append, hf]
    simp [List.filter, hms]
  · subst hdb
    refine ⟨t, ?_, mem_addStepLink.mpr (Or.inl hl)⟩
    rw [(addStepLink_frame _ pid _).2.1]
    exact hf

theorem gocSteps_preserves_settled {u pid : Nat} :
    ∀ {ds : List StepDescr} {db db' : DB},
      getOrCreateSteps db u pid ds = .ok db' →
      ∀ {d : StepDescr}, settledStep db u pid d → settledStep db' u pid d := by
  intro ds
  induction ds with
  | nil =>
      intro db db' h d hs
      cases h
      exact hs
  | cons e rest ih =>
      intro db db' h d hs
      rw [getOrCreateSteps_cons] at h
      rcases hg : getOrCreateStep db u e with er | ⟨s, db1⟩ <;> rw [hg] at h
      · cases h
      exact ih h (settledStep_preserve hs hg)

theorem gocSteps_settled {u pid : Nat} :
    ∀ {ds : List StepDescr} {db db' : DB},
      getOrCreateSteps db u pid ds = .ok db' →
      ∀ {d : StepDescr}, d ∈ ds → settledStep db' u pid d := by
  intro ds
  induction ds with
  | nil =>
      intro db db' _ d hd
      exact absurd hd (List.not_mem_nil d)
  | cons e rest ih =>
      intro db db' h d hd
      rw [getOrCreateSteps_cons] at h
      rcases hg : getOrCreateStep db u e with er | ⟨s, db1⟩ <;> rw [hg] at h
      · cases h
      rcases List.mem_cons.mp hd with hde | hdr
      · exact gocSteps_preserves_settled h (hde ▸ settledStep_step hg)
      · exact ih h hdr

/-- First-occurrence deduplication of a step-descriptor list. -/
def dedupStepDescrs (seen : List StepDescr) : List StepDescr → List StepDescr
  | [] => []
  | d :: rest =>
      if d ∈ seen then dedupStepDescrs seen rest
      else d :: dedupStepDescrs (d :: seen) rest

theorem settledStep_noop {db : DB} {u pid : Nat} {d : StepDescr} (hs : settledStep db u pid d)
    (rest : List StepDescr) :
    getOrCreateSteps db u pid (d :: rest) = getOrCreateSteps db u pid rest := by
  obtain ⟨s, hf, hl⟩ := hs
  have hg : getOrCreateStep db u d = .ok (s, db) := by
    unfold getOrCreateStep
    rw [hf]
  rw [getOrCreateSteps_cons, hg]
  have ha : addStepLink db pid s.id = db := by
    unfold addStepLink
    rw [if_pos hl]
  show getOrCreateSteps (addStepLink db pid s.id) u pid rest = getOrCreateSteps db u pid rest
  rw [ha]

theorem gocSteps_dedup_aux {u pid : Nat} :
    ∀ {ds : List StepDescr} {db : DB} {seen : List StepDescr},
      (∀ d ∈ seen, settledStep db u pid d) →
      getOrCreateSteps db u pid ds = getOrCreateSteps db u pid (dedupStepDescrs seen ds) := by
  intro ds
  induction ds with
  | nil =>
      intro db seen _
      rfl
  | cons d rest ih =>
      intro db seen hseen
      by_cases hd : d ∈ seen
      · rw [dedupStepDescrs, if_pos hd, settledStep_noop (hseen d hd) rest]
        exact ih hseen
      · rw [dedupStepDescrs, if_neg hd, getOrCreateSteps_cons, getOrCreateSteps_cons]
        rcases hg : getOrCreateStep db u d with er | ⟨s, db1⟩
        · rfl
        refine ih ?_
        intro e he
        rcases List.mem_cons.mp he with rfl | hes
        · exact settledStep_step hg
        · exact settledStep_preserve (hseen e hes) hg

theorem gocSteps_eq_dedup (db : DB) (u pid : Nat) (ds : List StepDescr) :
    getOrCreateSteps db u pid ds = getOrCreateSteps db u pid (dedupStepDescrs [] ds) :=
  gocSteps_dedup_aux (fun d hd => absurd hd (List.not_mem_nil d))

/-! ### Per-descriptor get-or-create results, and request-level unfoldings -/

theorem gocTags_descr_spec {u pid : Nat} {ds : List TagDescr} {db db' : DB}
    (h : getOrCreateTags db u pid ds = .ok db') {d : TagDescr} (hd : d ∈ ds) :
    (∀ t0, db.tags.filter (tagMatches u d) = [t0] →
        (pid, t0.id) ∈ db'.postingTags ∧ db'.tags.filter (tagMatches u d) = [t0]) ∧
    (db.tags.filter (tagMatches u d) = [] →
        ∃ t, db'.tags.filter (tagMatches u d) = [t] ∧ t ∉ db.tags ∧ t.user = u ∧
          tagMatches u d t = true ∧ (pid, t.id) ∈ db'.postingTags) := by
  obtain ⟨t, hft, hlt⟩ := gocTags_settled h hd
  obtain ⟨ext, hext, hu⟩ := gocTags_tags_shape h
  constructor
  · intro t0 h0
    rw [hext, List.filter_append, h0, List.singleton_append] at hft
    injection hft with h1 h2
    subst h1
    rw [hext, List.filter_append, h0, List.singleton_append, h2]
    exact ⟨hlt, rfl⟩
  · intro h0
    rw [hext, List.filter_append, h0, List.nil_append] at hft
    have hmem : t ∈ ext.filter (tagMatches u d) := hft ▸ List.mem_singleton_self t
    have hmatch : tagMatches u d t = true := List.of_mem_filter hmem
    refine ⟨t, ?_, ?_, tagMatches_user hmatch, hmatch, hlt⟩
    · rw [hext, List.filter_append, h0, List.nil_append]
      exact hft
    · intro hc
      have : t ∈ db.tags.filter (tagMatches u d) := List.mem_filter.mpr ⟨hc, hmatch⟩
      rw [h0] at this
      exact absurd this (List.not_mem_nil t)

theorem gocSteps_descr_spec {u pid : Nat} {ds : List StepDescr} {db db' : DB}
    (h : getOrCreateSteps db u pid ds = .ok db') {d : StepDescr} (hd : d ∈ ds) :
    (∀ s0, db.steps.filter (stepMatches u d) = [s0] →
        (pid, s0.id) ∈ db'.postingSteps ∧ db'.steps.filter (stepMatches u d) = [s0]) ∧
    (db.steps.filter (stepMatches u d) = [] →
        ∃ s, db'.steps.filter (stepMatches u d) = [s] ∧ s ∉ db.steps ∧ s.user = u ∧
          stepMatches u d s = true ∧ (pid, s.id) ∈ db'.postingSteps) := by
  obtain ⟨s, hfs, hls⟩ := gocSteps_settled h hd
  obtain ⟨ext, hext, hu⟩ := gocSteps_steps_shape h
  constructor
  · intro s0 h0
    rw [hext, List.filter_append, h0, List.singleton_append] at hfs
    injection hfs with h1 h2
    subst h1
    rw [hext, List.filter_append, h0, List.singleton_append, h2]
    exact ⟨hls, rfl⟩
  · intro h0
    rw [hext, List.filter_append, h0, List.nil_append] at hfs
    have hmem : s ∈ ext.filter (stepMatches u d) := hfs ▸ List.mem_singleton_self s
    have hmatch : stepMatches u d s = true := List.of_mem_filter hmem
    refine ⟨s, ?_, ?_, stepMatches_user hmatch, hmatch, hls⟩
    · rw [hext, List.filter_append, h0, List.nil_append]
      exact hfs
    · intro hc
      have : s ∈ db.steps.filter (stepMatches u d) := List.mem_filter.mpr ⟨hc, hmatch⟩
      rw [h0] at this
      exact absurd this (List.not_mem_nil s)

theorem mem_clearTagLinks {db : DB} {pid : Nat} {l : Nat × Nat} :
    l ∈ (clearTagLinks db pid).postingTags ↔ l ∈ db.postingTags ∧ l.1 ≠ pid := by
  simp [clearTagLinks, List.mem_filter]

theorem mem_clearStepLinks {db : DB} {pid : Nat} {l : Nat × Nat} :
    l ∈ (clearStepLinks db pid).postingSteps ↔ l ∈ db.postingSteps ∧ l.1 ≠ pid := by
  simp [clearStepLinks, List.mem_filter]

theorem updatePosting_ok_elim {db db' : DB} {u pid : Nat} {pl : Payload}
    (h : updatePosting db u pid pl = .ok db') :
    ∃ db2 db4,
      getOrCreateTags (clearTagLinks db pid) u pid (pl.tags.getD []) = .ok db2 ∧
      getOrCreateSteps (clearStepLinks db2 pid) u pid (pl.steps.getD []) = .ok db4 ∧
      db' = { db4 with postings :=
        db4.postings.map (fun q => if q.id == pid then applyPatch q pl else q) } := by
  unfold updatePosting at h
  simp only [bind, Except.bind] at h
  split at h
  · exact Except.noConfusion h
  next db2 h2 =>
    split at h
    · exact Except.noConfusion h
    next db4 h4 =>
      injection h with h5
      exact ⟨db2, db4, h2, h4, h5.symm⟩

theorem createPosting_ok_elim {db db' : DB} {u : Nat} {pl : Payload} {p : Posting}
    (h : createPosting db u pl = .ok (p, db')) :
    p = ⟨db.nextPostingId, u, pl.title.getD "", pl.description.getD "",
          pl.time_minutes.getD 0, pl.link.getD ""⟩ ∧
    ∃ db1,
      getOrCreateTags
        { db with postings := db.postings ++ [p], nextPostingId := db.nextPostingId + 1 }
        u p.id (pl.tags.getD []) = .ok db1 ∧
      getOrCreateSteps db1 u p.id (pl.steps.getD []) = .ok db' := by
  unfold createPosting at h
  simp only [bind, Except.bind] at h
  split at h
  · exact Except.noConfusion h
  next db1 h1 =>
    split at h
    · exact Except.noConfusion h
    next db2 h2 =>
      injection h with h5
      injection h5 with hp hdb
      subst hp
      subst hdb
      exact ⟨rfl, db1, h1, h2⟩

/-! ### Further request-level helper lemmas -/

/-- An update whose validated payload carries neither relation field still
clears both junction tables for the posting (the pop defaults are the empty
list), keeps every child record, and patches the scalar fields. -/
theorem updatePosting_no_relations (db : DB) (u pid : Nat) (pl : Payload)
    (htags : pl.tags = none) (hsteps : pl.steps = none) :
    updatePosting db u pid pl =
      .ok { postings := db.postings.map (fun q => if q.id == pid then applyPatch q pl else q),
            tags := db.tags, steps := db.steps,
            postingTags := db.postingTags.filter (fun l => l.1 != pid),
            postingSteps := db.postingSteps.filter (fun l => l.1 != pid),
            nextPostingId := db.nextPostingId, nextTagId := db.nextTagId,
            nextStepId := db.nextStepId } := by
  unfold updatePosting
  rw [htags, hsteps]
  rfl

theorem patchPostingRequest_found {db : DB} {u pid : Nat} {raw : RawPayload} {p0 : Posting}
    (hfind : db.postings.find? (fun p => p.id == pid && p.user == u) = some p0) :
    patchPostingRequest db u pid raw =
      match updatePosting db u pid (validateRaw raw) with
      | .ok db' => .ok (200, db')
      | .error e => .error e := by
  unfold patchPostingRequest
  rw [hfind]
  rcases h : updatePosting db u pid (validateRaw raw) with e | db' <;>
    simp [bind, Except.bind, h]

theorem map_pair_id_user (pl : Payload) (pid : Nat) :
    ∀ l : List Posting,
      (l.map (fun q => if q.id == pid then applyPatch q pl else q)).map
          (fun q => (q.id, q.user)) =
        l.map (fun q => (q.id, q.user)) := by
  intro l
  induction l with
  | nil => rfl
  | cons a t ih =>
      have hhead :
          ((if a.id == pid then applyPatch a pl else a).id,
            (if a.id == pid then applyPatch a pl else a).user) = (a.id, a.user) := by
        split <;> rfl
      simp only [List.map_cons, ih, hhead]

/-! ### Concrete database fixtures used by the claim instances -/

/-- A store with one posting (id 1, owner 7) linked to one tag and one step. -/
def dbLinked : DB :=
  ⟨[⟨1, 7, "Sample", "Desc", 5, "lnk"⟩], [⟨1, 7, "A"⟩], [⟨1, 7, "S", none⟩],
    [(1, 1)], [(1, 1)], 2, 2, 2⟩

/-- The store after the posting's junction rows are cleared. -/
def dbLinkedCleared : DB :=
  { dbLinked with postingTags := [], postingSteps := [] }

/-! ### Claim C1 -/

/-- Claim C1 states that an update whose payload omits the relation fields
leaves the posting's tag/step links untouched.  The code refutes it: the
source pops the relation fields with default value the empty list, so a PATCH
carrying no relation field at all clears every tag link and every step link of
the posting.  Evaluated here on a posting linked to one tag and one step and
the all-absent payload: both junction tables end up empty. -/
theorem update_without_relation_fields_clears_links :
    updatePosting dbLinked 7 1 ⟨none, none, none, none, none, none⟩ =
        .ok dbLinkedCleared ∧
      dbLinked.postingTags ≠ [] ∧ dbLinked.postingSteps ≠ [] := by
  refine ⟨?_, by decide, by decide⟩
  rfl

/-! ### Claim C5 -/

/-- Claim C5 states that the list representation of a posting omits the
description field while the detail representation includes it.  The code
refutes the first half: PostingSerializer.Meta.fields (used for the list
action) already contains the description field, and PostingDetailSerializer
merely appends a redundant second copy. -/
theorem list_serializer_includes_description :
    "description" ∈ serializerFieldsFor "list" ∧
      "description" ∈ serializerFieldsFor "retrieve" := by
  decide

/-! ### Claim C7 -/

/-- Claim C7: an update whose payload sets a relation field to the explicit
empty list leaves the posting with zero links for that relation, while the
tag/step records themselves are all kept (the store's record tables are
unchanged). -/
theorem update_empty_relation_list_clears :
    ∀ (db : DB) (u pid : Nat) (pl : Payload) (db' : DB),
      updatePosting db u pid pl = .ok db' →
      (pl.tags = some [] →
        (∀ tid, (pid, tid) ∉ db'.postingTags) ∧ db'.tags = db.tags) ∧
      (pl.steps = some [] →
        (∀ sid, (pid, sid) ∉ db'.postingSteps) ∧ db'.steps = db.steps) := by
  intro db u pid pl db' h
  obtain ⟨db2, db4, h2, h4, hdb'⟩ := updatePosting_ok_elim h
  subst hdb'
  constructor
  · intro htags
    rw [htags] at h2
    have hdb2 : db2 = clearTagLinks db pid := by
      injection h2 with h2e
      exact h2e.symm
    constructor
    · intro tid hmem
      have hm4 : (pid, tid) ∈ db4.postingTags := hmem
      have hm2 : (pid, tid) ∈ db2.postingTags := by
        have := (gocSteps_frame h4).2.2.1
        rw [this] at hm4
        exact hm4
      rw [hdb2] at hm2
      exact (mem_clearTagLinks.mp hm2).2 rfl
    · have ht4 : db4.tags = db2.tags := (gocSteps_frame h4).2.1
      have : db4.tags = db.tags := by
        rw [ht4, hdb2]
        rfl
      exact this
  · intro hsteps
    rw [hsteps] at h4
    have hdb4 : db4 = clearStepLinks db2 pid := by
      injection h4 with h4e
      exact h4e.symm
    constructor
    · intro sid hmem
      have hm4 : (pid, sid) ∈ db4.postingSteps := hmem
      rw [hdb4] at hm4
      exact (mem_clearStepLinks.mp hm4).2 rfl
    · have hs2 : db2.steps = db.steps := (gocTags_frame h2).2.1
      have : db4.steps = db.steps := by
        rw [hdb4]
        show db2.steps = db.steps
        exact hs2
      exact this

/-- Instance of claim C7 on the concrete fixture: patching the linked posting
with both relation fields explicitly empty leaves it with no tag link and no
step link, and the tag/step record tables unchanged. -/
theorem update_empty_relation_list_clears_witness :
    (∀ tid, (1, tid) ∉ dbLinkedCleared.postingTags) ∧
      dbLinkedCleared.tags = dbLinked.tags ∧
      (∀ sid, (1, sid) ∉ dbLinkedCleared.postingSteps) ∧
      dbLinkedCleared.steps = dbLinked.steps := by
  have h := update_empty_relation_list_clears dbLinked 7 1
    ⟨none, none, none, none, some [], some []⟩ dbLinkedCleared (by rfl)
  exact ⟨(h.1 rfl).1, (h.1 rfl).2, (h.2 rfl).1, (h.2 rfl).2⟩

/-! ### Claim C8 -/

/-- Claim C8: a PATCH whose body contains a user key is answered with 200 and
never reassigns any posting's owner.  First conjunct: serializer validation
discards the user key outright (it is not one of the serializer's fields), so
the validated data of a body with the key equals that of the same body without
it.  Second conjunct: for a posting owned by the requester, the PATCH carrying
only a user key succeeds with 200 and every posting's (id, owner) pair is
unchanged. -/
theorem patch_user_field_silently_ignored :
    (∀ r : RawPayload, validateRaw r = validateRaw { r with user := none }) ∧
    (∀ (db : DB) (u pid v : Nat) (p0 : Posting),
      db.postings.find? (fun p => p.id == pid && p.user == u) = some p0 →
      ∃ db', patchPostingRequest db u pid ⟨none, none, none, none, none, none, some v⟩ =
          .ok (200, db') ∧
        db'.postings.map (fun q => (q.id, q.user)) =
          db.postings.map (fun q => (q.id, q.user))) := by
  constructor
  · intro r
    rfl
  · intro db u pid v p0 hfind
    rw [patchPostingRequest_found hfind,
      updatePosting_no_relations db u pid _ rfl rfl]
    exact ⟨_, rfl, map_pair_id_user _ pid db.postings⟩

/-- Instance of claim C8 on the concrete fixture: patching posting 1 of user 7
with body consisting solely of a user key aiming at user 99 answers 200 and
leaves the (id, owner) pairs untouched. -/
theorem patch_user_field_silently_ignored_witness :
    ∃ db', patchPostingRequest dbLinked 7 1 ⟨none, none, none, none, none, none, some 99⟩ =
        .ok (200, db') ∧
      db'.postings.map (fun q => (q.id, q.user)) =
        dbLinked.postings.map (fun q => (q.id, q.user)) :=
  patch_user_field_silently_ignored.2 dbLinked 7 1 99 ⟨1, 7, "Sample", "Desc", 5, "lnk"⟩
    (by decide)

/-! ### Claim C2 -/

/-- Every child linked to the posting exists in the store and is owned by `u`. -/
def childrenOwned (db : DB) (pid u : Nat) : Prop :=
  (∀ l ∈ db.postingTags, l.1 = pid → ∃ t ∈ db.tags, t.id = l.2 ∧ t.user = u) ∧
  (∀ l ∈ db.postingSteps, l.1 = pid → ∃ s ∈ db.steps, s.id = l.2 ∧ s.user = u)

/-- Claim C2: after a create or update by user `u`, every tag/step linked to
the posting is owned by `u` (get-or-create lookups are scoped to the
requesting user), and a descriptor that matches no tag owned by `u` — in
particular one whose name matches only another user's tag — results in a
freshly created tag owned by `u`, never in reuse of the other user's record.
The create case assumes the fresh posting id has no junction rows yet (the
auto-increment invariant of the store). -/
theorem children_owned_by_requesting_user :
    (∀ (db : DB) (u pid : Nat) (pl : Payload) (db' : DB),
      updatePosting db u pid pl = .ok db' → childrenOwned db' pid u) ∧
    (∀ (db : DB) (u : Nat) (pl : Payload) (p : Posting) (db' : DB),
      (∀ tid, (db.nextPostingId, tid) ∉ db.postingTags) →
      (∀ sid, (db.nextPostingId, sid) ∉ db.postingSteps) →
      createPosting db u pl = .ok (p, db') → childrenOwned db' p.id u) ∧
    (∀ (db : DB) (u pid : Nat) (pl : Payload) (db' : DB) (d : TagDescr),
      updatePosting db u pid pl = .ok db' → d ∈ pl.tags.getD [] →
      db.tags.filter (tagMatches u d) = [] →
      ∃ t ∈ db'.tags, t ∉ db.tags ∧ t.user = u ∧ tagMatches u d t = true ∧
        (pid, t.id) ∈ db'.postingTags) := by
  refine ⟨?_, ?_, ?_⟩
  · intro db u pid pl db' h
    obtain ⟨db2, db4, h2, h4, hdb'⟩ := updatePosting_ok_elim h
    subst hdb'
    constructor
    · intro l hl hlp
      have hl4 : l ∈ db4.postingTags := hl
      have hpt : db4.postingTags = db2.postingTags := (gocSteps_frame h4).2.2.1
      rw [hpt] at hl4
      rcases gocTags_links_sub h2 l hl4 with hc | ⟨-, t, htm, hti, htu⟩
      · exact absurd hlp (mem_clearTagLinks.mp hc).2
      · refine ⟨t, ?_, hti, htu⟩
        have htags : db4.tags = db2.tags := (gocSteps_frame h4).2.1
        show t ∈ db4.tags
        rw [htags]
        exact htm
    · intro l hl hlp
      have hl4 : l ∈ db4.postingSteps := hl
      rcases gocSteps_links_sub h4 l hl4 with hc | ⟨-, s, hsm, hsi, hsu⟩
      · exact absurd hlp (mem_clearStepLinks.mp hc).2
      · exact ⟨s, hsm, hsi, hsu⟩
  · intro db u pl p db' hfreshT hfreshS h
    obtain ⟨hp, db1, h1, h2⟩ := createPosting_ok_elim h
    subst hp
    constructor
    · intro l hl hlp
      have hpt : db'.postingTags = db1.postingTags := (gocSteps_frame h2).2.2.1
      have hl1 : l ∈ db1.postingTags := by
        rw [← hpt]
        exact hl
      rcases gocTags_links_sub h1 l hl1 with hc | ⟨-, t, htm, hti, htu⟩
      · have hc' : l ∈ db.postingTags := hc
        have hlp' : l.1 = db.nextPostingId := hlp
        have hleq : (db.nextPostingId, l.2) = l := by rw [← hlp']
        exact absurd (hleq ▸ hfreshT l.2) (by simp [hc'])
      · refine ⟨t, ?_, hti, htu⟩
        have htags : db'.tags = db1.tags := (gocSteps_frame h2).2.1
        rw [htags]
        exact htm
    · intro l hl hlp
      rcases gocSteps_links_sub h2 l hl with hc | ⟨-, s, hsm, hsi, hsu⟩
      · have hps : db1.postingSteps = db.postingSteps := (gocTags_frame h1).2.2.1
        rw [hps] at hc
        have hlp' : l.1 = db.nextPostingId := hlp
        have hleq : (db.nextPostingId, l.2) = l := by rw [← hlp']
        exact absurd (hleq ▸ hfreshS l.2) (by simp [hc])
      · exact ⟨s, hsm, hsi, hsu⟩
  · intro db u pid pl db' d h hd h0
    obtain ⟨db2, db4, h2, h4, hdb'⟩ := updatePosting_ok_elim h
    subst hdb'
    have h0' : (clearTagLinks db pid).tags.filter (tagMatches u d) = [] := h0
    obtain ⟨t, hft, hnot, hu, hm, hl⟩ := (gocTags_descr_spec h2 hd).2 h0'
    have htags : db4.tags = db2.tags := (gocSteps_frame h4).2.1
    have hpt : db4.postingTags = db2.postingTags := (gocSteps_frame h4).2.2.1
    refine ⟨t, ?_, hnot, hu, hm, ?_⟩
    · show t ∈ db4.tags
      rw [htags]
      exact List.mem_of_mem_filter (hft ▸ List.mem_singleton_self t)
    · show (pid, t.id) ∈ db4.postingTags
      rw [hpt]
      exact hl

/-- The fixture after patching posting 1 with the single new tag name B. -/
def dbAfterTagPatch : DB :=
  ⟨[⟨1, 7, "Sample", "Desc", 5, "lnk"⟩],
    [⟨1, 7, "A"⟩, ⟨2, 7, "B"⟩], [⟨1, 7, "S", none⟩],
    [(1, 2)], [], 2, 3, 2⟩

/-- Instance of claim C2: after user 7 patches posting 1 with one tag
descriptor, every child linked to it is an existing record owned by user 7. -/
theorem children_owned_by_requesting_user_witness :
    childrenOwned dbAfterTagPatch 1 7 :=
  children_owned_by_requesting_user.1 dbLinked 7 1
    ⟨none, none, none, none, some [⟨"B"⟩], none⟩ dbAfterTagPatch (by rfl)

/-! ### Claim C3 -/

/-- Claim C3: on a posting-create request, each tag descriptor with a unique
matching tag owned by the requester gets that record attached with no
duplicate created (the set of matching records is unchanged), and each
descriptor with no matching record owned by the requester gets a freshly
created record, owned by the requester, attached; likewise for steps. -/
theorem create_lookup_or_insert_per_descriptor :
    ∀ (db : DB) (u : Nat) (pl : Payload) (p : Posting) (db' : DB),
      createPosting db u pl = .ok (p, db') →
      (∀ d ∈ pl.tags.getD [],
        (∀ t0, db.tags.filter (tagMatches u d) = [t0] →
          (p.id, t0.id) ∈ db'.postingTags ∧ db'.tags.filter (tagMatches u d) = [t0]) ∧
        (db.tags.filter (tagMatches u d) = [] →
          ∃ t, db'.tags.filter (tagMatches u d) = [t] ∧ t ∉ db.tags ∧ t.user = u ∧
            tagMatches u d t = true ∧ (p.id, t.id) ∈ db'.postingTags)) ∧
      (∀ d ∈ pl.steps.getD [],
        (∀ s0, db.steps.filter (stepMatches u d) = [s0] →
          (p.id, s0.id) ∈ db'.postingSteps ∧ db'.steps.filter (stepMatches u d) = [s0]) ∧
        (db.steps.filter (stepMatches u d) = [] →
          ∃ s, db'.steps.filter (stepMatches u d) = [s] ∧ s ∉ db.steps ∧ s.user = u ∧
            stepMatches u d s = true ∧ (p.id, s.id) ∈ db'.postingSteps)) := by
  intro db u pl p db' h
  obtain ⟨hp, db1, h1, h2⟩ := createPosting_ok_elim h
  have htags : db'.tags = db1.tags := (gocSteps_frame h2).2.1
  have hpt : db'.postingTags = db1.postingTags := (gocSteps_frame h2).2.2.1
  have hsteps1 : db1.steps = db.steps := (gocTags_frame h1).2.1
  constructor
  · intro d hd
    have spec := gocTags_descr_spec h1 hd
    constructor
    · intro t0 h0
      obtain ⟨hlink, hfil⟩ := spec.1 t0 h0
      constructor
      · rw [hpt]
        exact hlink
      · rw [htags]
        exact hfil
    · intro h0
      obtain ⟨t, hfil, hnot, hu, hm, hlink⟩ := spec.2 h0
      refine ⟨t, ?_, hnot, hu, hm, ?_⟩
      · rw [htags]
        exact hfil
      · rw [hpt]
        exact hlink
  · intro d hd
    have spec := gocSteps_descr_spec h2 hd
    constructor
    · intro s0 h0
      have h0' : db1.steps.filter (stepMatches u d) = [s0] := by
        rw [hsteps1]
        exact h0
      exact spec.1 s0 h0'
    · intro h0
      have h0' : db1.steps.filter (stepMatches u d) = [] := by
        rw [hsteps1]
        exact h0
      obtain ⟨s, hfil, hnot, hu, hm, hlink⟩ := spec.2 h0'
      refine ⟨s, hfil, ?_, hu, hm, hlink⟩
      rw [hsteps1] at hnot
      exact hnot

/-- The fixture after creating a second posting with tags A (existing) and B
(new) and step S (existing). -/
def dbAfterCreate : DB :=
  ⟨[⟨1, 7, "Sample", "Desc", 5, "lnk"⟩, ⟨2, 7, "T", "", 9, ""⟩],
    [⟨1, 7, "A"⟩, ⟨2, 7, "B"⟩], [⟨1, 7, "S", none⟩],
    [(1, 1), (2, 1), (2, 2)], [(1, 1), (2, 1)], 3, 3, 2⟩

/-- Instance of claim C3 on the fixture: creating a posting with tag
descriptors A and B reuses the stored tag A (attaching it, creating nothing
new that matches A) and creates-and-attaches a fresh tag for B owned by the
requester. -/
theorem create_lookup_or_insert_per_descriptor_witness :
    ((2, 1) ∈ dbAfterCreate.postingTags ∧
      dbAfterCreate.tags.filter (tagMatches 7 ⟨"A"⟩) = [⟨1, 7, "A"⟩]) ∧
    (∃ t, dbAfterCreate.tags.filter (tagMatches 7 ⟨"B"⟩) = [t] ∧ t ∉ dbLinked.tags ∧
      t.user = 7 ∧ tagMatches 7 ⟨"B"⟩ t = true ∧ (2, t.id) ∈ dbAfterCreate.postingTags) := by
  have h := create_lookup_or_insert_per_descriptor dbLinked 7
    ⟨some "T", none, some 9, none, some [⟨"A"⟩, ⟨"B"⟩], some [⟨"S"⟩]⟩
    ⟨2, 7, "T", "", 9, ""⟩ dbAfterCreate (by rfl)
  exact ⟨(h.1 ⟨"A"⟩ (by decide)).1 ⟨1, 7, "A"⟩ (by decide),
    (h.1 ⟨"B"⟩ (by decide)).2 (by decide)⟩

/-! ### Claim C10 -/

/-- Claim C10: the reconciler has set semantics — a descriptor list with
repetitions drives the store to exactly the state of its first-occurrence
deduplication, and a repeated descriptor in a successful run leaves the
posting linked to exactly one corresponding child record. -/
theorem reconcile_set_semantics :
    (∀ (db : DB) (u pid : Nat) (ds : List TagDescr),
      getOrCreateTags db u pid ds = getOrCreateTags db u pid (dedupTagDescrs [] ds)) ∧
    (∀ (db : DB) (u pid : Nat) (ds : List StepDescr),
      getOrCreateSteps db u pid ds = getOrCreateSteps db u pid (dedupStepDescrs [] ds)) ∧
    (∀ (db db' : DB) (u pid : Nat) (ds : List TagDescr) (d : TagDescr),
      1 < ds.count d → getOrCreateTags db u pid ds = .ok db' →
      ∃ t, db'.tags.filter (tagMatches u d) = [t] ∧ (pid, t.id) ∈ db'.postingTags) ∧
    (∀ (db db' : DB) (u pid : Nat) (ds : List StepDescr) (d : StepDescr),
      1 < ds.count d → getOrCreateSteps db u pid ds = .ok db' →
      ∃ s, db'.steps.filter (stepMatches u d) = [s] ∧ (pid, s.id) ∈ db'.postingSteps) := by
  refine ⟨fun db u pid ds => gocTags_eq_dedup db u pid ds,
    fun db u pid ds => gocSteps_eq_dedup db u pid ds, ?_, ?_⟩
  · intro db db' u pid ds d hcnt h
    have hd : d ∈ ds := by
      by_contra hc
      rw [List.count_eq_zero.mpr hc] at hcnt
      exact absurd hcnt (by omega)
    exact gocTags_settled h hd
  · intro db db' u pid ds d hcnt h
    have hd : d ∈ ds := by
      by_contra hc
      rw [List.count_eq_zero.mpr hc] at hcnt
      exact absurd hcnt (by omega)
    exact gocSteps_settled h hd

/-- Instance of claim C10: reconciling the duplicated list of the existing
tag name against the fixture succeeds and leaves exactly one matching linked
tag. -/
theorem reconcile_set_semantics_witness :
    ∃ t, dbLinked.tags.filter (tagMatches 7 ⟨"A"⟩) = [t] ∧
      (1, t.id) ∈ dbLinked.postingTags :=
  reconcile_set_semantics.2.2.1 dbLinked dbLinked 7 1 [⟨"A"⟩, ⟨"A"⟩] ⟨"A"⟩
    (by decide) (by rfl)

/-! ### Claim C6 -/

theorem intsOfTokens_error_of_bad :
    ∀ {l : List String}, (∃ t ∈ l, pyInt t = none) →
      intsOfTokens l = .error "ValueError" := by
  intro l
  induction l with
  | nil =>
      rintro ⟨t, ht, -⟩
      exact absurd ht (List.not_mem_nil t)
  | cons a rest ih =>
      rintro ⟨t, ht, htn⟩
      rcases hpa : pyInt a with _ | n
      · simp [intsOfTokens, hpa]
      · rcases List.mem_cons.mp ht with rfl | htr
        · rw [hpa] at htn
          exact Option.noConfusion htn
        · simp [intsOfTokens, hpa, ih ⟨t, htr, htn⟩]

/-- Claim C6 states a malformed ID token yields a client input error.  The
code refutes this: int() raises ValueError, nothing in the view catches it,
and the request dies with an unhandled exception (an HTTP 500 server error,
modelled by the error branch), rather than a 400 client error — and no
posting list is produced.  This theorem proves the amended behaviour: a
non-numeric token in the tags (or steps) parameter makes get_queryset raise
ValueError. -/
theorem malformed_id_param_raises_valueerror :
    (∀ (db : DB) (u : Nat) (s : String) (sp : Option String),
      s ≠ "" → (∃ tok ∈ splitComma s, pyInt tok = none) →
      getQueryset db u (some s) sp = .error "ValueError") ∧
    (∀ (db : DB) (u : Nat) (s : String),
      s ≠ "" → (∃ tok ∈ splitComma s, pyInt tok = none) →
      getQueryset db u none (some s) = .error "ValueError") := by
  constructor
  · intro db u s sp hs hbad
    have hsb : (s == "") = false := beq_eq_false_iff_ne.mpr hs
    have herr : paramsToInts s = .error "ValueError" := intsOfTokens_error_of_bad hbad
    simp [getQueryset, hsb, herr, bind, Except.bind, pure, Except.pure]
  · intro db u s hs hbad
    have hsb : (s == "") = false := beq_eq_false_iff_ne.mpr hs
    have herr : paramsToInts s = .error "ValueError" := intsOfTokens_error_of_bad hbad
    simp [getQueryset, hsb, herr, bind, Except.bind, pure, Except.pure]

/-- Claim C6, the code evaluated at a failing input: listing with
tags equal to the string a,2 raises ValueError instead of reporting a
client input error. -/
theorem malformed_id_param_crashes_concrete :
    getQueryset dbLinked 7 (some "a,2") none = .error "ValueError" := by
  rfl

/-- Instance of the amended claim C6 at another concrete input, obtained by
applying the theorem. -/
theorem malformed_id_param_raises_valueerror_witness :
    getQueryset dbLinked 7 (some "x,2") none = .error "ValueError" :=
  malformed_id_param_raises_valueerror.1 dbLinked 7 "x,2" none (by decide)
    ⟨"x", by decide, by decide⟩

/-! ### Claim C9 -/

/-- Claim C9: for an upload_image request on an owned step, a missing or
invalid image payload is answered 400 with the store untouched (no save on the
error path); a valid image is answered 200 with the stored path reference in
the body, the step's stored image field set to that path, all other steps kept
unchanged, and the junction tables untouched.  The framework's image decoding
and file storage are abstract parameters. -/
theorem upload_image_status_and_effect :
    ∀ (isValid : String → Bool) (store : String → String) (db : DB) (u sid : Nat)
      (payload : Option String) (s0 : Step),
      db.steps.find? (fun s => s.id == sid && s.user == u) = some s0 →
      ((payload = none → uploadImage isValid store db u sid payload = (400, none, db)) ∧
       (∀ img, payload = some img → isValid img = false →
         uploadImage isValid store db u sid payload = (400, none, db)) ∧
       (∀ img, payload = some img → isValid img = true →
         ∃ db', uploadImage isValid store db u sid payload = (200, some (store img), db') ∧
           (∀ t ∈ db.steps, t.id = sid →
             ({ t with image := some (store img) } : Step) ∈ db'.steps) ∧
           (∀ t ∈ db.steps, t.id ≠ sid → t ∈ db'.steps) ∧
           db'.postingSteps = db.postingSteps ∧ db'.postingTags = db.postingTags)) := by
  intro isValid store db u sid payload s0 hfind
  refine ⟨?_, ?_, ?_⟩
  · intro hp
    subst hp
    unfold uploadImage
    rw [hfind]
  · intro img hp hv
    subst hp
    unfold uploadImage
    rw [hfind]
    show (if isValid img then _ else ((400 : Nat), (none : Option String), db)) = _
    rw [hv]
    rfl
  · intro img hp hv
    subst hp
    refine ⟨{ db with steps := db.steps.map (fun t =>
        if t.id == sid then { t with image := some (store img) } else t) },
      ?_, ?_, ?_, rfl, rfl⟩
    · unfold uploadImage
      rw [hfind]
      show (if isValid img then _ else ((400 : Nat), (none : Option String), db)) = _
      rw [hv]
      rfl
    · intro t ht hts
      refine List.mem_map.mpr ⟨t, ht, ?_⟩
      rw [if_pos (by simp [hts])]
    · intro t ht hts
      refine List.mem_map.mpr ⟨t, ht, ?_⟩
      rw [if_neg (by simp [hts])]

/-- Instance of claim C9: on the fixture, uploading an invalid payload to the
owned step 1 answers 400 and leaves the store untouched, under a validator
that rejects everything. -/
theorem upload_image_status_and_effect_witness :
    uploadImage (fun _ => false) (fun s => s) dbLinked 7 1 (some "junk") =
      (400, none, dbLinked) :=
  ((upload_image_status_and_effect (fun _ => false) (fun s => s) dbLinked 7 1
    (some "junk") ⟨1, 7, "S", none⟩ (by decide)).2.1) "junk" rfl rfl

/-! ### Claim C4 -/

theorem mem_tagJoinFilter {db : DB} {ids : List Int} {q : List Posting} {p : Posting} :
    p ∈ tagJoinFilter db ids q ↔
      p ∈ q ∧ ∃ l ∈ db.postingTags, l.1 = p.id ∧ Int.ofNat l.2 ∈ ids := by
  unfold tagJoinFilter
  rw [List.mem_flatMap]
  constructor
  · rintro ⟨a, ha, hp⟩
    rw [List.mem_map] at hp
    obtain ⟨x, hx, hxa⟩ := hp
    subst hxa
    obtain ⟨hxl, hcond⟩ := List.mem_filter.mp hx
    simp only [Bool.and_eq_true, beq_iff_eq, List.elem_iff] at hcond
    exact ⟨ha, x, hxl, hcond.1, hcond.2⟩
  · rintro ⟨hq, l, hl, hl1, hl2⟩
    refine ⟨p, hq, List.mem_map.mpr ⟨l, List.mem_filter.mpr ⟨hl, ?_⟩, rfl⟩⟩
    simp only [Bool.and_eq_true, beq_iff_eq, List.elem_iff]
    exact ⟨hl1, hl2⟩

theorem mem_stepJoinFilter {db : DB} {ids : List Int} {q : List Posting} {p : Posting} :
    p ∈ stepJoinFilter db ids q ↔
      p ∈ q ∧ ∃ l ∈ db.postingSteps, l.1 = p.id ∧ Int.ofNat l.2 ∈ ids := by
  unfold stepJoinFilter
  rw [List.mem_flatMap]
  constructor
  · rintro ⟨a, ha, hp⟩
    rw [List.mem_map] at hp
    obtain ⟨x, hx, hxa⟩ := hp
    subst hxa
    obtain ⟨hxl, hcond⟩ := List.mem_filter.mp hx
    simp only [Bool.and_eq_true, beq_iff_eq, List.elem_iff] at hcond
    exact ⟨ha, x, hxl, hcond.1, hcond.2⟩
  · rintro ⟨hq, l, hl, hl1, hl2⟩
    refine ⟨p, hq, List.mem_map.mpr ⟨l, List.mem_filter.mpr ⟨hl, ?_⟩, rfl⟩⟩
    simp only [Bool.and_eq_true, beq_iff_eq, List.elem_iff]
    exact ⟨hl1, hl2⟩

theorem mem_sortByIdDesc {p : Posting} {l : List Posting} :
    p ∈ sortByIdDesc l ↔ p ∈ l :=
  (List.perm_insertionSort postingGe l).mem_iff

theorem nodup_sortByIdDesc {l : List Posting} (h : l.Nodup) : (sortByIdDesc l).Nodup :=
  ((List.perm_insertionSort postingGe l).nodup_iff).mpr h

theorem sorted_sortByIdDesc (l : List Posting) : List.Sorted postingGe (sortByIdDesc l) :=
  List.sorted_insertionSort postingGe l

theorem finalize_spec (u : Nat) (q2 : List Posting) :
    (∀ p, p ∈ sortByIdDesc ((q2.filter (fun p => p.user == u)).dedup) ↔
      p ∈ q2 ∧ p.user = u) ∧
      (sortByIdDesc ((q2.filter (fun p => p.user == u)).dedup)).Nodup ∧
      List.Sorted postingGe (sortByIdDesc ((q2.filter (fun p => p.user == u)).dedup)) := by
  refine ⟨?_, nodup_sortByIdDesc (List.nodup_dedup _), sorted_sortByIdDesc _⟩
  intro p
  rw [mem_sortByIdDesc, List.mem_dedup, List.mem_filter]
  simp

theorem getQueryset_none_none (db : DB) (u : Nat) :
    getQueryset db u none none =
      .ok (sortByIdDesc ((db.postings.filter (fun p => p.user == u)).dedup)) := rfl

theorem getQueryset_some_none {s : String} {ids : List Int} (db : DB) (u : Nat)
    (hs : (s == "") = false) (hp : paramsToInts s = .ok ids) :
    getQueryset db u (some s) none =
      .ok (sortByIdDesc (((tagJoinFilter db ids db.postings).filter
        (fun p => p.user == u)).dedup)) := by
  simp [getQueryset, hs, hp, bind, Except.bind, pure, Except.pure]

theorem getQueryset_none_some {s : String} {ids : List Int} (db : DB) (u : Nat)
    (hs : (s == "") = false) (hp : paramsToInts s = .ok ids) :
    getQueryset db u none (some s) =
      .ok (sortByIdDesc (((stepJoinFilter db ids db.postings).filter
        (fun p => p.user == u)).dedup)) := by
  simp [getQueryset, hs, hp, bind, Except.bind, pure, Except.pure]

theorem getQueryset_some_some {s1 s2 : String} {ids1 ids2 : List Int} (db : DB) (u : Nat)
    (hs1 : (s1 == "") = false) (hp1 : paramsToInts s1 = .ok ids1)
    (hs2 : (s2 == "") = false) (hp2 : paramsToInts s2 = .ok ids2) :
    getQueryset db u (some s1) (some s2) =
      .ok (sortByIdDesc (((stepJoinFilter db ids2 (tagJoinFilter db ids1 db.postings)).filter
        (fun p => p.user == u)).dedup)) := by
  simp [getQueryset, hs1, hp1, hs2, hp2, bind, Except.bind, pure, Except.pure]

/-- The tag inclusion filter demanded by an optional parsed tags parameter. -/
def optTagCond (db : DB) (o : Option (List Int)) (p : Posting) : Prop :=
  ∀ ids, o = some ids → ∃ l ∈ db.postingTags, l.1 = p.id ∧ Int.ofNat l.2 ∈ ids

/-- The step inclusion filter demanded by an optional parsed steps parameter. -/
def optStepCond (db : DB) (o : Option (List Int)) (p : Posting) : Prop :=
  ∀ ids, o = some ids → ∃ l ∈ db.postingSteps, l.1 = p.id ∧ Int.ofNat l.2 ∈ ids

theorem optTagCond_none {db : DB} {p : Posting} : optTagCond db none p :=
  fun _ h => Option.noConfusion h

theorem optStepCond_none {db : DB} {p : Posting} : optStepCond db none p :=
  fun _ h => Option.noConfusion h

theorem optTagCond_some {db : DB} {ids : List Int} {p : Posting} :
    optTagCond db (some ids) p ↔
      ∃ l ∈ db.postingTags, l.1 = p.id ∧ Int.ofNat l.2 ∈ ids := by
  constructor
  · intro h
    exact h ids rfl
  · intro h ids' he
    injection he with he
    subst he
    exact h

theorem optStepCond_some {db : DB} {ids : List Int} {p : Posting} :
    optStepCond db (some ids) p ↔
      ∃ l ∈ db.postingSteps, l.1 = p.id ∧ Int.ofNat l.2 ∈ ids := by
  constructor
  · intro h
    exact h ids rfl
  · intro h ids' he
    injection he with he
    subst he
    exact h

/-- Claim C4: a posting list request with optional comma-separated tag and/or
step ID parameters (each parsing successfully) returns exactly the requesting
user's postings that have at least one linked tag among the given tag ids AND
at least one linked step among the given step ids — each inclusion filter
applied only when its parameter is present — with no duplicates and ordered by
descending primary key. -/
theorem list_filter_semantics :
    ∀ (db : DB) (u : Nat) (tp sp : Option String) (tagIds stepIds : Option (List Int)),
      (tp = none ∧ tagIds = none ∨
        ∃ s ids, tp = some s ∧ s ≠ "" ∧ paramsToInts s = .ok ids ∧ tagIds = some ids) →
      (sp = none ∧ stepIds = none ∨
        ∃ s ids, sp = some s ∧ s ≠ "" ∧ paramsToInts s = .ok ids ∧ stepIds = some ids) →
      ∃ res, getQueryset db u tp sp = .ok res ∧
        (∀ p, p ∈ res ↔
          p ∈ db.postings ∧ p.user = u ∧ optTagCond db tagIds p ∧ optStepCond db stepIds p) ∧
        res.Nodup ∧ List.Sorted postingGe res := by
  intro db u tp sp tagIds stepIds htp hsp
  rcases htp with ⟨rfl, rfl⟩ | ⟨s1, ids1, rfl, hs1, hp1, rfl⟩ <;>
    rcases hsp with ⟨rfl, rfl⟩ | ⟨s2, ids2, rfl, hs2, hp2, rfl⟩
  · refine ⟨_, getQueryset_none_none db u, ?_,
      (finalize_spec u db.postings).2.1, (finalize_spec u db.postings).2.2⟩
    intro p
    rw [(finalize_spec u db.postings).1 p]
    have hT : optTagCond db none p := optTagCond_none
    have hS : optStepCond db none p := optStepCond_none
    tauto
  · have hs2b : (s2 == "") = false := beq_eq_false_iff_ne.mpr hs2
    refine ⟨_, getQueryset_none_some db u hs2b hp2, ?_,
      (finalize_spec u _).2.1, (finalize_spec u _).2.2⟩
    intro p
    rw [(finalize_spec u _).1 p, mem_stepJoinFilter, optStepCond_some]
    have hT : optTagCond db none p := optTagCond_none
    tauto
  · have hs1b : (s1 == "") = false := beq_eq_false_iff_ne.mpr hs1
    refine ⟨_, getQueryset_some_none db u hs1b hp1, ?_,
      (finalize_spec u _).2.1, (finalize_spec u _).2.2⟩
    intro p
    rw [(finalize_spec u _).1 p, mem_tagJoinFilter, optTagCond_some]
    have hS : optStepCond db none p := optStepCond_none
    tauto
  · have hs1b : (s1 == "") = false := beq_eq_false_iff_ne.mpr hs1
    have hs2b : (s2 == "") = false := beq_eq_false_iff_ne.mpr hs2
    refine ⟨_, getQueryset_some_some db u hs1b hp1 hs2b hp2, ?_,
      (finalize_spec u _).2.1, (finalize_spec u _).2.2⟩
    intro p
    rw [(finalize_spec u _).1 p, mem_stepJoinFilter, mem_tagJoinFilter,
      optTagCond_some, optStepCond_some]
    tauto

/-- Instance of claim C4 on the fixture, with tags=1 and steps=1. -/
theorem list_filter_semantics_witness :
    ∃ res, getQueryset dbAfterCreate 7 (some "1") (some "1") = .ok res ∧
      (∀ p, p ∈ res ↔
        p ∈ dbAfterCreate.postings ∧ p.user = 7 ∧
          optTagCond dbAfterCreate (some [1]) p ∧ optStepCond dbAfterCreate (some [1]) p) ∧
      res.Nodup ∧ List.Sorted postingGe res :=
  list_filter_semantics dbAfterCreate 7 (some "1") (some "1") (some [1]) (some [1])
    (Or.inr ⟨"1", [1], rfl, by decide, by rfl, rfl⟩)
    (Or.inr ⟨"1", [1], rfl, by decide, by rfl, rfl⟩)

end PostingApp
